import Mathlib

/-!
Shallow embedding of `src/scripts/discretize_arena.py` and verification of the
spec claims about `split_arena`.

The Python function is embedded over `Int` (Python integers are unbounded), with
its dictionary as an insertion-ordered association list, its exceptions as an
explicit error type, and its line-76 `while` loop driven by a fuel parameter
(the loop body never changes `remaining`, so the loop cannot terminate
normally; fuel exhaustion is reported as a distinguished `outOfFuel` value).
Integer `//` and `%` of Python are `Int.ediv` and `Int.emod`, which is what
`/` and `%` denote on `Int` in Lean.
-/

/-- Exceptions a run of `split_arena` can raise, plus `outOfFuel`, the marker
for an execution of the line-76 while loop cut off by the fuel bound. -/
inductive PyErr where
  | assertPositive
  | assertExact
  | valueError
  | keyError
  | indexError
  | typeError
  | outOfFuel
  deriving DecidableEq, Repr

/-- The fixed descending block-size set (source line 7). -/
def BLOCK_SIZES : List Int := [1024, 512, 256, 128, 64, 32]

/-- Python dictionaries with integer keys and values, as insertion-ordered
association lists. -/
abbrev Dict := List (Int × Int)

/-- Dictionary read `d[k]`; `none` means a `KeyError`. -/
def dictGet (d : Dict) (k : Int) : Option Int :=
  match d with
  | [] => none
  | (k2, v) :: rest => if k = k2 then some v else dictGet rest k

/-- Dictionary write `d[k] = v`, keeping insertion order as Python does. -/
def dictSet (d : Dict) (k v : Int) : Dict :=
  match d with
  | [] => [(k, v)]
  | (k2, v2) :: rest => if k = k2 then (k, v) :: rest else (k2, v2) :: dictSet rest k v

/-- Python `min` over a list; `ValueError` on an empty one. -/
def pyMin (l : List Int) : Except PyErr Int :=
  match l with
  | [] => .error .valueError
  | x :: xs => .ok (xs.foldl min x)

/-- Python `max(l, default=d)` (source line 34). -/
def pyMaxDefault (l : List Int) (d : Int) : Int :=
  match l with
  | [] => d
  | x :: xs => xs.foldl max x

/-- One comparison step of Python `max(workables, key=lambda x: len(x[0]))`:
the running best is replaced only by a strictly longer member list. -/
def selStep (acc y : List Int × Int) : List Int × Int :=
  if acc.1.length < y.1.length then y else acc

/-- Python `max(workables, key=lambda x: len(x[0]))` (source line 50); the
first maximum in iteration order wins, and an empty input raises
`ValueError`. -/
def pyMaxByLen (l : List (List Int × Int)) : Except PyErr (List Int × Int) :=
  match l with
  | [] => .error .valueError
  | x :: xs => .ok (xs.foldl selStep x)

/-- Source line 35: `[sz for sz in BLOCK_SIZES if sz <= (arena_size // partition)]`. -/
def quotaSizes (a p : Int) : List Int :=
  BLOCK_SIZES.filter (fun sz => decide (sz ≤ a / p))

/-- Source lines 40-47: accept sizes of `tmp` while the running `cumulation`,
raised by `dist_sz` per accepted member, stays within the arena. -/
def buildLst (a d : Int) : List Int → Int → List Int
  | [], _ => []
  | sz :: rest, cumulation =>
      if cumulation + d ≤ a then sz :: buildLst a d rest (cumulation + d) else []

/-- Python `range(len(BLOCK_SIZES), 0, -1)` (source line 33). -/
def partitionCounts : List Int :=
  ((List.range' 1 BLOCK_SIZES.length).reverse).map (fun (n : Nat) => (n : Int))

/-- Source line 34: `dist_sz`, the largest size within the quota of partition
count `p`, defaulting to `0`. -/
def distSzAt (a p : Int) : Int := pyMaxDefault (quotaSizes a p) 0

/-- Source lines 32-48: the candidate scan; a partition count whose quota
admits no size stops the scan (`break`), keeping earlier records. -/
def workablesLoop (a : Int) : List Int → List (List Int × Int)
  | [] => []
  | p :: rest =>
      if distSzAt a p = 0 then []
      else
        (buildLst a (distSzAt a p)
            (BLOCK_SIZES.filter (fun sz => decide (sz ≤ distSzAt a p))) 0,
          distSzAt a p) :: workablesLoop a rest

/-- The recorded candidate list `workables` for a given arena size. -/
def workables (a : Int) : List (List Int × Int) :=
  workablesLoop a partitionCounts

/-- Source line 57: `mid = (len(workable) // 2) - 1`, an integer that is `-1`
for a singleton member list. -/
def midOf (n : Nat) : Int := ((n / 2 : Nat) : Int) - 1

/-- One level of `idx_tree` (source lines 63-73): the index left of `mid`
first, then the right one, `none` standing for Python's `None` placeholder of
an out-of-range index. -/
def lvlAt (n : Nat) (mid : Int) (dist : Nat) : Option Int × Option Int :=
  ((if 0 ≤ mid - (dist : Int) then some (mid - (dist : Int)) else none),
   (if mid + (dist : Int) < (n : Int) then some (mid + (dist : Int)) else none))

/-- Source lines 61-73: `idx_tree`, the root level `(mid, None)` followed by
one level per `dist` in `range(1, math.ceil(n / 2))`. -/
def idxTree (n : Nat) : List (Option Int × Option Int) :=
  (some (midOf n), none) :: (List.range' 1 ((n + 1) / 2 - 1)).map (lvlAt n (midOf n))

/-- Python list indexing, negative indices counting from the end; `none` is an
`IndexError`. -/
def pyIndex (l : List Int) (i : Int) : Option Int :=
  if 0 ≤ i ∧ i < (l.length : Int) then l.get? i.toNat
  else if 0 ≤ i + (l.length : Int) ∧ i < 0 then l.get? (i + (l.length : Int)).toNat
  else none

/-- Source lines 77-78: one pass of
`for lvl in idx_tree: blocks[workable[lvl[0]]] += 1`; indexing a list with
`None` is a `TypeError` and reading an absent dictionary key a `KeyError`. -/
def walkSweep (workable : List Int) (tree : List (Option Int × Option Int)) (blocks : Dict) :
    Except PyErr Dict :=
  match tree with
  | [] => .ok blocks
  | lvl :: rest =>
      match lvl.1 with
      | none => .error .typeError
      | some i =>
          match pyIndex workable i with
          | none => .error .indexError
          | some key =>
              match dictGet blocks key with
              | none => .error .keyError
              | some v => walkSweep workable rest (dictSet blocks key (v + 1))

/-- Source line 76: `while remaining >= min(workable)`, fueled.  The loop body
never changes `remaining`, exactly as in the source. -/
def walkWhile (workable : List Int) (tree : List (Option Int × Option Int))
    (remaining : Int) : Nat → Dict → Except PyErr Dict
  | 0, _ => .error .outOfFuel
  | Nat.succ fuel, blocks =>
      match pyMin workable with
      | .error e => .error e
      | .ok m =>
          if m ≤ remaining then
            match walkSweep workable tree blocks with
            | .error e => .error e
            | .ok b2 => walkWhile workable tree remaining fuel b2
          else .ok blocks

/-- Source lines 83-85: the greedy pass
`count, remaining = divmod(remaining, size); blocks[size] = count`. -/
def greedyLoop : List Int → Dict → Int → Dict × Int
  | [], blocks, remaining => (blocks, remaining)
  | size :: rest, blocks, remaining =>
      greedyLoop rest (dictSet blocks size (remaining / size)) (remaining % size)

/-- Source line 87: `sum(size * blocks[size] for size in BLOCK_SIZES)`. -/
def sumBlocks (blocks : Dict) : List Int → Except PyErr Int
  | [] => .ok 0
  | sz :: rest =>
      match dictGet blocks sz with
      | none => .error .keyError
      | some v =>
          match sumBlocks blocks rest with
          | .error e => .error e
          | .ok s => .ok (sz * v + s)

/-- Shallow embedding of `split_arena` (source lines 4-89).  `fuel` bounds the
iterations of the line-76 while loop; everything else is total.  The line-5
assert is `assertPositive`, the line-87 assert `assertExact`. -/
def split_arena (fuel : Nat) (arena_size : Int) : Except PyErr (Dict × Int) :=
  if arena_size > 0 then
    match pyMin BLOCK_SIZES with
    | .error e => .error e
    | .ok mn =>
        if arena_size < mn then .ok ([], arena_size)
        else
          match pyMaxByLen (workables arena_size) with
          | .error e => .error e
          | .ok wd =>
              match walkWhile wd.1 (idxTree wd.1.length) arena_size fuel [] with
              | .error e => .error e
              | .ok b2 =>
                  match sumBlocks (greedyLoop BLOCK_SIZES b2 arena_size).1 BLOCK_SIZES with
                  | .error e => .error e
                  | .ok s =>
                      if s + (greedyLoop BLOCK_SIZES b2 arena_size).2 = arena_size
                      then .ok (greedyLoop BLOCK_SIZES b2 arena_size)
                      else .error .assertExact
  else .error .assertPositive

/-- Indices of one tree level in visiting order, dropping the `None` marks. -/
def levelList (lvl : Option Int × Option Int) : List Int :=
  (match lvl.1 with | some i => [i] | none => []) ++
    (match lvl.2 with | some i => [i] | none => [])

/-- The center-outward visit order encoded by `idx_tree`: the indices level by
level, left before right, out-of-range entries skipped. -/
def visitOrder (n : Nat) : List Int := (idxTree n).flatMap levelList

/-- The integer interval `[lo, lo + len)` as a list, the reference against
which the visit order is measured. -/
def intervalInt (lo : Int) (len : Nat) : List Int :=
  (List.range len).map (fun (i : Nat) => lo + (i : Int))

/-- The visited indices contributed by the tree levels `dist = 1, …, k` around
a given `mid`, in visiting order. -/
def levelsUpTo (n : Nat) (mid : Int) (k : Nat) : List Int :=
  ((List.range' 1 k).map (lvlAt n mid)).flatMap levelList

/-! ### Facts about the Python `max` / `min` folds -/

/-- A left fold of `max` lands on its seed or on a list element. -/
lemma foldl_max_mem : ∀ (xs : List Int) (x : Int), xs.foldl max x ∈ x :: xs := by
  intro xs
  induction xs with
  | nil => intro x; simp
  | cons y ys ih =>
      intro x
      have h := ih (max x y)
      rcases List.mem_cons.mp h with h1 | h1
      · rcases max_choice x y with h2 | h2
        · rw [List.foldl_cons, h1, h2]; exact List.mem_cons_self x _
        · rw [List.foldl_cons, h1, h2]
          exact List.mem_cons_of_mem x (List.mem_cons_self y _)
      · rw [List.foldl_cons]
        exact List.mem_cons_of_mem x (List.mem_cons_of_mem y h1)

/-- A left fold of `max` bounds its seed and every list element from above. -/
lemma le_foldl_max : ∀ (xs : List Int) (x : Int),
    x ≤ xs.foldl max x ∧ ∀ y ∈ xs, y ≤ xs.foldl max x := by
  intro xs
  induction xs with
  | nil => intro x; exact ⟨le_refl x, by simp⟩
  | cons y ys ih =>
      intro x
      rcases ih (max x y) with ⟨h1, h2⟩
      refine ⟨le_trans (le_max_left x y) h1, ?_⟩
      intro z hz
      rcases List.mem_cons.mp hz with rfl | hz2
      · exact le_trans (le_max_right x z) h1
      · exact h2 z hz2

/-- A left fold of `min` is bounded by its seed. -/
lemma foldl_min_le : ∀ (xs : List Int) (x : Int), xs.foldl min x ≤ x := by
  intro xs
  induction xs with
  | nil => intro x; exact le_refl x
  | cons y ys ih =>
      intro x
      exact le_trans (ih (min x y)) (min_le_left x y)

/-- On a non-empty list, `pyMaxDefault` returns a member. -/
lemma pyMaxDefault_mem (l : List Int) (d : Int) (h : l ≠ []) : pyMaxDefault l d ∈ l := by
  cases l with
  | nil => exact absurd rfl h
  | cons x xs => exact foldl_max_mem xs x

/-- `pyMaxDefault` bounds every member of the list from above. -/
lemma pyMaxDefault_ge (l : List Int) (d x : Int) (hx : x ∈ l) : x ≤ pyMaxDefault l d := by
  cases l with
  | nil => simp at hx
  | cons y ys =>
      rcases List.mem_cons.mp hx with rfl | h2
      · exact (le_foldl_max ys x).1
      · exact (le_foldl_max ys y).2 x h2

/-- On a non-empty list, `pyMin` succeeds with a value bounded by the head. -/
lemma pyMin_le_head (x : Int) (xs : List Int) : ∃ m, pyMin (x :: xs) = .ok m ∧ m ≤ x :=
  ⟨xs.foldl min x, rfl, foldl_min_le xs x⟩

/-! ### Facts about the member-list construction of lines 40-47 -/

/-- The accepted member list is a sublist of the scanned `tmp` list. -/
lemma buildLst_sublist (a d : Int) :
    ∀ (tmp : List Int) (c : Int), (buildLst a d tmp c).Sublist tmp := by
  intro tmp
  induction tmp with
  | nil => intro c; simp [buildLst]
  | cons sz rest ih =>
      intro c
      by_cases h : c + d ≤ a
      · simp only [buildLst, if_pos h]
        exact (ih (c + d)).cons₂ sz
      · simp only [buildLst, if_neg h]
        exact List.nil_sublist _

/-- Each accepted member raised the cumulation by `d` and the final cumulation
stayed within the arena: `c + len * d ≤ a` whenever anything was accepted. -/
lemma buildLst_budget (a d : Int) : ∀ (tmp : List Int) (c : Int),
    buildLst a d tmp c ≠ [] → c + ((buildLst a d tmp c).length : Int) * d ≤ a := by
  intro tmp
  induction tmp with
  | nil => intro c h; exact absurd rfl h
  | cons sz rest ih =>
      intro c h
      by_cases hc : c + d ≤ a
      · simp only [buildLst, if_pos hc] at h ⊢
        by_cases hr : buildLst a d rest (c + d) = []
        · rw [hr]; simpa using hc
        · have hb := ih (c + d) hr
          rw [List.length_cons]
          push_cast
          push_cast at hb
          linarith
      · simp only [buildLst, if_neg hc] at h
        exact absurd rfl h

/-- The first scanned size is always accepted when one reservation fits. -/
lemma buildLst_ne_nil (a d : Int) (tmp : List Int) (c : Int) (h : tmp ≠ []) (hc : c + d ≤ a) :
    buildLst a d tmp c ≠ [] := by
  cases tmp with
  | nil => exact absurd rfl h
  | cons sz rest => simp [buildLst, if_pos hc]

/-! ### The invariant of every recorded candidate -/

/-- All configured block sizes are positive. -/
lemma BLOCK_SIZES_pos : ∀ x ∈ BLOCK_SIZES, 0 < x := by decide

/-- The configured block sizes are strictly descending. -/
lemma BLOCK_SIZES_sorted : BLOCK_SIZES.Pairwise (· > ·) := by decide

/-- Every candidate `(members, dist_sz)` recorded by the scan has a positive
distribution size from the block-size set bounded by the arena, a non-empty
member list that is a sublist of the block-size set with members bounded by
`dist_sz`, and total reservation `len * dist_sz` within the arena. -/
lemma workablesLoop_invariant (a : Int) (ha : 0 ≤ a) :
    ∀ (ps : List Int), ∀ c ∈ workablesLoop a ps,
      c.2 ∈ BLOCK_SIZES ∧ 0 < c.2 ∧ c.2 ≤ a ∧ c.1 ≠ [] ∧
        c.1.Sublist BLOCK_SIZES ∧ (∀ x ∈ c.1, x ≤ c.2) ∧
        ((c.1.length : Int) * c.2 ≤ a) := by
  intro ps
  induction ps with
  | nil => intro c hc; simp [workablesLoop] at hc
  | cons p rest ih =>
      intro c hc
      simp only [workablesLoop] at hc
      by_cases hd : distSzAt a p = 0
      · rw [if_pos hd] at hc; simp at hc
      · rw [if_neg hd] at hc
        rcases List.mem_cons.mp hc with rfl | hc2
        · have hqne : quotaSizes a p ≠ [] := by
            intro hq
            apply hd
            rw [distSzAt, hq]
            rfl
          have hdmem : distSzAt a p ∈ quotaSizes a p := pyMaxDefault_mem _ _ hqne
          rw [quotaSizes, List.mem_filter] at hdmem
          rcases hdmem with ⟨hdBS, hdle⟩
          rw [decide_eq_true_eq] at hdle
          have hdpos : 0 < distSzAt a p := BLOCK_SIZES_pos _ hdBS
          have hda : distSzAt a p ≤ a := le_trans hdle (Int.ediv_le_self p ha)
          have htmp : distSzAt a p ∈ BLOCK_SIZES.filter
              (fun sz => decide (sz ≤ distSzAt a p)) :=
            List.mem_filter.mpr ⟨hdBS, by simp⟩
          have htne : BLOCK_SIZES.filter (fun sz => decide (sz ≤ distSzAt a p)) ≠ [] :=
            List.ne_nil_of_mem htmp
          have hlne : buildLst a (distSzAt a p)
              (BLOCK_SIZES.filter (fun sz => decide (sz ≤ distSzAt a p))) 0 ≠ [] :=
            buildLst_ne_nil _ _ _ _ htne (by linarith)
          have hsub := buildLst_sublist a (distSzAt a p)
            (BLOCK_SIZES.filter (fun sz => decide (sz ≤ distSzAt a p))) 0
          refine ⟨hdBS, hdpos, hda, hlne, hsub.trans (List.filter_sublist _), ?_, ?_⟩
          · intro x hx
            have hxt := hsub.subset hx
            rw [List.mem_filter, decide_eq_true_eq] at hxt
            exact hxt.2
          · have hb := buildLst_budget a (distSzAt a p) _ 0 hlne
            linarith
        · exact ih c hc2

/-! ### The candidate scan on the concrete input ranges -/

/-- The scanned partition counts are `6, 5, 4, 3, 2, 1`. -/
lemma partitionCounts_eq : partitionCounts = [6, 5, 4, 3, 2, 1] := by decide

/-- For `32 ≤ a < 192` the first quota `a // 6` is below every block size. -/
lemma quotaSizes_six_nil (a : Int) (h192 : a < 192) : quotaSizes a 6 = [] := by
  rw [quotaSizes, List.filter_eq_nil_iff]
  intro sz hsz
  have hq : a / 6 < 32 := by omega
  simp only [decide_eq_true_eq, not_le]
  have : sz = 1024 ∨ sz = 512 ∨ sz = 256 ∨ sz = 128 ∨ sz = 64 ∨ sz = 32 := by
    simpa [BLOCK_SIZES] using hsz
  rcases this with rfl | rfl | rfl | rfl | rfl | rfl <;> omega

/-- For `a < 192` the scan breaks on its first iteration: no candidate is
recorded at all. -/
lemma workables_eq_nil (a : Int) (h192 : a < 192) : workables a = [] := by
  rw [workables, partitionCounts_eq]
  simp only [workablesLoop]
  rw [if_pos]
  rw [distSzAt, quotaSizes_six_nil a h192]
  rfl

/-- For `192 ≤ a` the first quota admits the size `32`, so the first scanned
partition count records a candidate. -/
lemma workables_ne_nil (a : Int) (h : 192 ≤ a) : workables a ≠ [] := by
  have h32 : (32 : Int) ∈ quotaSizes a 6 := by
    rw [quotaSizes, List.mem_filter]
    refine ⟨by decide, ?_⟩
    rw [decide_eq_true_eq]
    omega
  have hd : ¬ distSzAt a 6 = 0 := by
    have := pyMaxDefault_ge (quotaSizes a 6) 0 32 h32
    rw [distSzAt]
    omega
  rw [workables, partitionCounts_eq]
  simp only [workablesLoop]
  rw [if_neg hd]
  exact List.cons_ne_nil _ _

/-! ### The selection of line 50: first maximum wins -/

/-- The fold of `selStep` lands on an element of the list, every element's
member count is bounded by its member count, and everything placed before it
in iteration order is strictly shorter. -/
lemma selFold_spec : ∀ (xs : List (List Int × Int)) (x : List Int × Int),
    ∃ l1 l2, x :: xs = l1 ++ (xs.foldl selStep x) :: l2 ∧
      (∀ c ∈ l1, c.1.length < (xs.foldl selStep x).1.length) ∧
      (∀ c ∈ x :: xs, c.1.length ≤ (xs.foldl selStep x).1.length) := by
  intro xs
  induction xs with
  | nil =>
      intro x
      exact ⟨[], [], rfl, by simp, by simp⟩
  | cons y ys ih =>
      intro x
      have hkey : (y :: ys).foldl selStep x = ys.foldl selStep (selStep x y) := rfl
      rw [hkey]
      by_cases hxy : x.1.length < y.1.length
      · have hsel : selStep x y = y := if_pos hxy
        rw [hsel]
        rcases ih y with ⟨l1, l2, hdec, hlt, hle⟩
        refine ⟨x :: l1, l2, ?_, ?_, ?_⟩
        · rw [List.cons_append, ← hdec]
        · intro c hc
          rcases List.mem_cons.mp hc with rfl | hc2
          · exact lt_of_lt_of_le hxy (hle y (List.mem_cons_self y ys))
          · exact hlt c hc2
        · intro c hc
          rcases List.mem_cons.mp hc with rfl | hc2
          · exact le_of_lt (lt_of_lt_of_le hxy (hle y (List.mem_cons_self y ys)))
          · exact hle c hc2
      · have hsel : selStep x y = x := if_neg hxy
        rw [hsel]
        rcases ih x with ⟨l1, l2, hdec, hlt, hle⟩
        cases l1 with
        | nil =>
            rw [List.nil_append] at hdec
            have hFx : x = ys.foldl selStep x := ((List.cons.injEq _ _ _ _).mp hdec).1
            refine ⟨[], y :: ys, ?_, by simp, ?_⟩
            · rw [List.nil_append, ← hFx]
            · intro c hc
              rcases List.mem_cons.mp hc with rfl | hc2
              · exact hle c (List.mem_cons_self c ys)
              · rcases List.mem_cons.mp hc2 with rfl | hc3
                · rw [← hFx]
                  exact le_of_not_lt hxy
                · exact hle c (List.mem_cons_of_mem x hc3)
        | cons z l1t =>
            rw [List.cons_append] at hdec
            have hz : x = z := ((List.cons.injEq _ _ _ _).mp hdec).1
            have hys : ys = l1t ++ ys.foldl selStep x :: l2 :=
              ((List.cons.injEq _ _ _ _).mp hdec).2
            have hxmem : x ∈ z :: l1t := by rw [← hz]; exact List.mem_cons_self x l1t
            have hxlt : x.1.length < (ys.foldl selStep x).1.length := hlt x hxmem
            refine ⟨x :: y :: l1t, l2, ?_, ?_, ?_⟩
            · rw [List.cons_append, List.cons_append, ← hys]
            · intro c hc
              rcases List.mem_cons.mp hc with rfl | hc2
              · exact hxlt
              · rcases List.mem_cons.mp hc2 with rfl | hc3
                · exact lt_of_le_of_lt (le_of_not_lt hxy) hxlt
                · exact hlt c (List.mem_cons_of_mem z hc3)
            · intro c hc
              rcases List.mem_cons.mp hc with rfl | hc2
              · exact le_of_lt hxlt
              · rcases List.mem_cons.mp hc2 with rfl | hc3
                · exact le_of_lt (lt_of_le_of_lt (le_of_not_lt hxy) hxlt)
                · exact hle c (List.mem_cons_of_mem x hc3)

/-- Python `max` with the length key: on a non-empty list it succeeds, its
result is placed in the list with only strictly shorter candidates before it,
and no candidate anywhere is longer. -/
lemma pyMaxByLen_spec (l : List (List Int × Int)) (h : l ≠ []) :
    ∃ w l1 l2, pyMaxByLen l = .ok w ∧ l = l1 ++ w :: l2 ∧
      (∀ c ∈ l1, c.1.length < w.1.length) ∧ (∀ c ∈ l, c.1.length ≤ w.1.length) := by
  cases l with
  | nil => exact absurd rfl h
  | cons x xs =>
      rcases selFold_spec xs x with ⟨l1, l2, hdec, hlt, hle⟩
      exact ⟨xs.foldl selStep x, l1, l2, rfl, hdec, hlt, hle⟩

/-! ### The walk of lines 76-78 dies on its first dictionary read -/

lemma pyIndex_mid (l : List Int) (h : l ≠ []) :
    ∃ key, pyIndex l (midOf l.length) = some key ∧ key ∈ l := by
  cases l with
  | nil => exact absurd rfl h
  | cons x xs =>
      by_cases h1 : xs = []
      · subst h1
        refine ⟨x, ?_, List.mem_singleton.mpr rfl⟩
        simp [pyIndex, midOf]
      · have hn : 2 ≤ (x :: xs).length := by
          cases xs with
          | nil => exact absurd rfl h1
          | cons b bs => simp [List.length_cons]
        have h0 : 0 ≤ midOf (x :: xs).length := by rw [midOf]; omega
        have hlt : midOf (x :: xs).length < ((x :: xs).length : Int) := by rw [midOf]; omega
        have htn : (midOf (x :: xs).length).toNat < (x :: xs).length := by omega
        refine ⟨(x :: xs).get ⟨(midOf (x :: xs).length).toNat, htn⟩, ?_, List.get_mem _ _ _⟩
        rw [pyIndex, if_pos ⟨h0, hlt⟩, List.get?_eq_get htn]

lemma walkWhile_keyError (w : List Int) (treeRest : List (Option Int × Option Int))
    (remaining : Int) (fuel : Nat) (mid key m : Int)
    (hidx : pyIndex w mid = some key)
    (hmin : pyMin w = .ok m) (hrem : m ≤ remaining) :
    walkWhile w ((some mid, none) :: treeRest) remaining (fuel + 1) [] = .error .keyError := by
  rw [walkWhile, hmin]
  simp only [if_pos hrem, walkSweep, hidx]
  rfl

/-! ### End-to-end behavior of `split_arena` on each input range -/

lemma pyMin_BLOCK_SIZES : pyMin BLOCK_SIZES = .ok 32 := rfl

lemma split_arena_neg (a : Int) (fuel : Nat) (h : a ≤ 0) :
    split_arena fuel a = .error .assertPositive := by
  rw [split_arena, if_neg (by omega)]

lemma split_arena_below (a : Int) (fuel : Nat) (h0 : 0 < a) (h32 : a < 32) :
    split_arena fuel a = .ok ([], a) := by
  rw [split_arena, if_pos h0, pyMin_BLOCK_SIZES]
  simp only []
  rw [if_pos h32]

lemma split_arena_mid (a : Int) (fuel : Nat) (h32 : 32 ≤ a) (h192 : a < 192) :
    split_arena fuel a = .error .valueError := by
  rw [split_arena, if_pos (by omega), pyMin_BLOCK_SIZES]
  simp only []
  rw [if_neg (by omega), workables_eq_nil a h192]
  rfl

lemma split_arena_ge192 (a : Int) (h : 192 ≤ a) :
    (∀ fuel, split_arena (fuel + 1) a = .error .keyError) ∧
      split_arena 0 a = .error .outOfFuel := by
  have hne := workables_ne_nil a h
  rcases pyMaxByLen_spec (workables a) hne with ⟨w, l1, l2, hsel, hdec, hlt, hle⟩
  have hwmem : w ∈ workables a := by
    rw [hdec]
    exact List.mem_append_right _ (List.mem_cons_self _ _)
  rcases workablesLoop_invariant a (by omega) partitionCounts w hwmem with
    ⟨hdBS, hdpos, hda, hwne, hsub, hmem, hbud⟩
  obtain ⟨y, ys, hw⟩ : ∃ y ys, w.1 = y :: ys := by
    cases hw1 : w.1 with
    | nil => exact absurd hw1 hwne
    | cons y ys => exact ⟨y, ys, rfl⟩
  rcases pyMin_le_head y ys with ⟨m, hmin, hmy⟩
  have hymem : y ∈ w.1 := by rw [hw]; exact List.mem_cons_self y ys
  have hma : m ≤ a := le_trans hmy (le_trans (hmem y hymem) hda)
  have hminw : pyMin w.1 = .ok m := by rw [hw]; exact hmin
  rcases pyIndex_mid w.1 hwne with ⟨key, hidx, hkey⟩
  have hwalk : ∀ fuel, walkWhile w.1 (idxTree w.1.length) a (fuel + 1) [] = .error .keyError := by
    intro fuel
    rw [idxTree]
    exact walkWhile_keyError w.1 _ a fuel (midOf w.1.length) key m hidx hminw hma
  constructor
  · intro fuel
    rw [split_arena, if_pos (by omega), pyMin_BLOCK_SIZES]
    simp only []
    rw [if_neg (by omega), hsel]
    simp only []
    rw [hwalk fuel]
  · rw [split_arena, if_pos (by omega), pyMin_BLOCK_SIZES]
    simp only []
    rw [if_neg (by omega), hsel]
    simp only []
    rw [show walkWhile w.1 (idxTree w.1.length) a 0 [] = .error .outOfFuel from rfl]

/-! ### The shape of the visit order -/

/-- Peeling the last element off an integer interval. -/
lemma intervalInt_concat (lo : Int) (len : Nat) :
    intervalInt lo (len + 1) = intervalInt lo len ++ [lo + (len : Int)] := by
  unfold intervalInt
  rw [List.range_succ, List.map_append]
  rfl

/-- Peeling the first element off an integer interval. -/
lemma intervalInt_cons (lo : Int) (len : Nat) :
    intervalInt lo (len + 1) = lo :: intervalInt (lo + 1) len := by
  unfold intervalInt
  rw [List.range_succ_eq_map]
  simp only [List.map_cons, List.map_map]
  refine congrArg₂ _ (by simp) ?_
  apply List.map_congr_left
  intro i hi
  simp [Function.comp]
  omega

/-- No tree level contributes anything for `k = 0`. -/
lemma levelsUpTo_zero (n : Nat) (mid : Int) : levelsUpTo n mid 0 = [] := rfl

/-- The contributions of levels `1, …, k + 1` are those of `1, …, k` followed
by the level at distance `k + 1`. -/
lemma levelsUpTo_succ (n : Nat) (mid : Int) (k : Nat) :
    levelsUpTo n mid (k + 1) = levelsUpTo n mid k ++ levelList (lvlAt n mid (k + 1)) := by
  unfold levelsUpTo
  rw [List.range'_concat, List.map_append, List.flatMap_append]
  have h1 : 1 + 1 * k = k + 1 := by omega
  rw [h1]
  simp

/-- Appending the two next outward neighbours to an interval is a permutation
of the widened interval. -/
lemma interval_extend (lo : Int) (len : Nat) :
    List.Perm (intervalInt lo len ++ [lo - 1, lo + (len : Int)])
      (intervalInt (lo - 1) (len + 2)) := by
  have h1 : intervalInt (lo - 1) (len + 2) = (lo - 1) :: intervalInt lo (len + 1) := by
    rw [intervalInt_cons]
    norm_num
  rw [h1, intervalInt_concat lo len]
  have h3 : intervalInt lo len ++ [lo - 1, lo + (len : Int)]
      = (intervalInt lo len ++ [lo - 1]) ++ [lo + (len : Int)] := by simp
  rw [h3]
  refine ((List.perm_append_comm).append_right [lo + (len : Int)]).trans ?_
  rw [List.append_assoc]
  exact List.Perm.refl _

/-- For every distance bound `k ≤ mid` (with the right half staying in range),
`mid` followed by the level contributions out to distance `k` is a permutation
of the integer interval `[mid - k, mid + k]`. -/
lemma walkPerm (n m : Nat) (hn : 2 * m + 2 ≤ n) :
    ∀ k, k ≤ m →
      List.Perm ((m : Int) :: levelsUpTo n (m : Int) k)
        (intervalInt ((m : Int) - (k : Int)) (2 * k + 1)) := by
  intro k
  induction k with
  | zero =>
      intro _
      rw [levelsUpTo_zero]
      have h1 : intervalInt ((m : Int) - ((0 : Nat) : Int)) (2 * 0 + 1) = [(m : Int)] := by
        unfold intervalInt
        rw [show List.range 1 = [0] from rfl]
        simp
      rw [h1]
  | succ k ih =>
      intro hk
      have hk1 : k ≤ m := by omega
      have hperm := ih hk1
      rw [levelsUpTo_succ]
      have hlvl : levelList (lvlAt n (m : Int) (k + 1)) =
          [((m : Int) - (k : Int)) - 1, ((m : Int) - (k : Int)) + ((2 * k + 1 : Nat) : Int)] := by
        unfold lvlAt levelList
        rw [if_pos (by push_cast; omega), if_pos (by push_cast; omega)]
        push_cast
        simp only [List.cons_append, List.nil_append, List.cons.injEq, and_true]
        constructor
        · ring
        · ring
      rw [hlvl]
      refine ((hperm.append_right _).trans ?_)
      have hidx : (m : Int) - ((k + 1 : Nat) : Int) = ((m : Int) - (k : Int)) - 1 := by
        push_cast
        ring
      have hlen : 2 * (k + 1) + 1 = (2 * k + 1) + 2 := by omega
  
      rw [hidx, hlen]
      exact interval_extend ((m : Int) - (k : Int)) (2 * k + 1)

/-- The visit order is `mid` followed by the level contributions. -/
lemma visitOrder_decomp (n : Nat) :
    visitOrder n = midOf n :: levelsUpTo n (midOf n) ((n + 1) / 2 - 1) := rfl

/-- For two or more members, the visit order is a permutation of the interval
of indices `0, …, n - 2`: every index except the last one, each exactly
once. -/
lemma visitOrder_perm_core (n : Nat) (h2 : 2 ≤ n) :
    List.Perm (visitOrder n) (intervalInt 0 (n - 1)) := by
  have hmid : midOf n = ((n / 2 - 1 : Nat) : Int) := by rw [midOf]; omega
  have hmn : 2 * (n / 2 - 1) + 2 ≤ n := by omega
  rw [visitOrder_decomp, hmid]
  rcases Nat.mod_two_eq_zero_or_one n with he | ho
  · have hk : (n + 1) / 2 - 1 = n / 2 - 1 := by omega
    rw [hk]
    have hp := walkPerm n (n / 2 - 1) hmn (n / 2 - 1) le_rfl
    have h0 : ((n / 2 - 1 : Nat) : Int) - ((n / 2 - 1 : Nat) : Int) = 0 := by ring
    have hlen : 2 * (n / 2 - 1) + 1 = n - 1 := by omega
    rw [h0, hlen] at hp
    exact hp
  · have hk1 : (n + 1) / 2 - 1 = (n / 2 - 1) + 1 := by omega
    rw [hk1, levelsUpTo_succ]
    have hlvl : levelList (lvlAt n ((n / 2 - 1 : Nat) : Int) ((n / 2 - 1) + 1)) =
        [(0 : Int) + ((2 * (n / 2 - 1) + 1 : Nat) : Int)] := by
      unfold lvlAt levelList
      rw [if_neg (by push_cast; omega), if_pos (by push_cast; omega)]
      push_cast
      simp only [List.nil_append, List.cons.injEq, and_true]
      omega
    rw [hlvl]
    have hp := (walkPerm n (n / 2 - 1) hmn (n / 2 - 1) le_rfl).append_right
      [(0 : Int) + ((2 * (n / 2 - 1) + 1 : Nat) : Int)]
    have h0 : ((n / 2 - 1 : Nat) : Int) - ((n / 2 - 1 : Nat) : Int) = 0 := by ring
    rw [h0] at hp
    refine hp.trans ?_
    rw [← intervalInt_concat 0 (2 * (n / 2 - 1) + 1)]
    have hlen : 2 * (n / 2 - 1) + 1 + 1 = n - 1 := by omega
    rw [hlen]

/-! ### Monotonicity of the quota in the partition count -/

/-- Dividing a non-negative integer by a larger positive divisor gives a
quotient at most as large. -/
lemma ediv_antitone (a p q : Int) (hp : 0 < p) (hpq : p ≤ q) (ha : 0 ≤ a) :
    a / q ≤ a / p := by
  have hq : 0 < q := lt_of_lt_of_le hp hpq
  have h1 : q * (a / q) + a % q = a := Int.ediv_add_emod a q
  have h2 : p * (a / p) + a % p = a := Int.ediv_add_emod a p
  have h3 : 0 ≤ a % q := Int.emod_nonneg a (ne_of_gt hq)
  have h4 : a % p < p := Int.emod_lt_of_pos a hp
  have h5 : 0 ≤ a / q := Int.ediv_nonneg ha (le_of_lt hq)
  nlinarith

/-- Once the quota at partition count `p` admits no block size, the quota at
any count `q ≥ p` (which is at most as large) admits none either. -/
lemma quotaSizes_nil_mono (a p q : Int) (ha : 0 ≤ a) (hp : 0 < p) (hpq : p ≤ q)
    (h : quotaSizes a p = []) : quotaSizes a q = [] := by
  rw [quotaSizes, List.filter_eq_nil_iff] at h ⊢
  intro sz hsz
  have hnp := h sz hsz
  have hdiv : a / q ≤ a / p := ediv_antitone a p q hp hpq ha
  simp only [decide_eq_true_eq, not_le] at hnp ⊢
  omega

/-! ### The claims -/

/-- C1: the exactness claim fails on the code.  At the valid input
`arenaSize = 32` (with the configured block-size set, and for any fuel) the
function raises `ValueError` — `max` of the empty candidate list — instead of
returning a counts/gap pair, so no exactness equation is ever produced, even
though the code's own line-87 assert states exactly that equation. -/
theorem exactness_fails_at_32 : ∀ fuel, split_arena fuel 32 = .error .valueError :=
  fun fuel => split_arena_mid 32 fuel (by decide) (by decide)

/-- C2: the totality claim fails on the code.  At the valid input
`arenaSize = 192` one unit of fuel already aborts with `KeyError` — the walk
increments a dictionary entry that was never initialised — and with no fuel
the line-76 loop is still running; since its body never decreases
`remaining`, the loop can never terminate normally, so no `AllocationResult`
is ever returned. -/
theorem walk_never_returns_at_192 :
    (∀ fuel, split_arena (fuel + 1) 192 = .error .keyError) ∧
      split_arena 0 192 = .error .outOfFuel :=
  split_arena_ge192 192 (by decide)

/-- C3: for every `arenaSize ≥ 32` the function raises an exception and never
returns a result: for `32 ≤ arenaSize < 192` the candidate scan breaks on its
first iteration (`arenaSize // 6 < 32`) leaving the candidate list empty so
that taking its maximum raises `ValueError`, and for `arenaSize ≥ 192` the
walk loop's first increment of the never-initialised dictionary raises
`KeyError` (fuel 0 models the execution still inside the loop). -/
theorem split_arena_always_raises (a : Int) (fuel : Nat) (h : 32 ≤ a) :
    (∀ r, split_arena fuel a ≠ .ok r) ∧
      (a < 192 → workables a = [] ∧ split_arena fuel a = .error .valueError) ∧
      (192 ≤ a → 1 ≤ fuel → split_arena fuel a = .error .keyError) := by
  by_cases h192 : a < 192
  · have hm := split_arena_mid a fuel h h192
    refine ⟨?_, fun _ => ⟨workables_eq_nil a h192, hm⟩, fun hge _ => absurd hge (by omega)⟩
    intro r hr
    rw [hm] at hr
    exact Except.noConfusion hr
  · have hge : 192 ≤ a := by omega
    rcases split_arena_ge192 a hge with ⟨hsucc, hzero⟩
    refine ⟨?_, fun hlt => absurd hlt h192, fun _ hfuel => ?_⟩
    · intro r hr
      cases fuel with
      | zero => rw [hzero] at hr; exact Except.noConfusion hr
      | succ f => rw [hsucc f] at hr; exact Except.noConfusion hr
    · cases fuel with
      | zero => omega
      | succ f => exact hsucc f

/-- Witness for C3 at the concrete input `arenaSize = 200` with fuel `1`. -/
theorem split_arena_always_raises_witness :
    (32 : Int) ≤ 200 ∧
      ((∀ r, split_arena 1 200 ≠ .ok r) ∧
        ((200 : Int) < 192 → workables 200 = [] ∧ split_arena 1 200 = .error .valueError) ∧
        ((192 : Int) ≤ 200 → 1 ≤ 1 → split_arena 1 200 = .error .keyError)) :=
  ⟨by decide, split_arena_always_raises 200 1 (by decide)⟩

/-- C4 counterexample: at `arenaSize = 10` the function returns the empty
mapping, which does not map every configured size to zero — the configured
sizes are not keys of it at all. -/
theorem below_min_not_all_zero :
    split_arena 1 10 = .ok ([], 10) ∧
      ¬ (∀ sz ∈ BLOCK_SIZES, dictGet ([] : Dict) sz = some 0) :=
  ⟨rfl, by decide⟩

/-- C4 amended: for `0 < arenaSize < 32` the function returns the empty
mapping — no size is a key, so no count, zero or otherwise, is recorded — and
a gap equal to the whole arena. -/
theorem below_min_empty_and_gap (a : Int) (fuel : Nat) (h0 : 0 < a) (h32 : a < 32) :
    split_arena fuel a = .ok ([], a) :=
  split_arena_below a fuel h0 h32

/-- Witness for the amended C4 at `arenaSize = 10`. -/
theorem below_min_empty_and_gap_witness :
    (0 : Int) < 10 ∧ (10 : Int) < 32 ∧ split_arena 1 10 = .ok ([], 10) :=
  ⟨by decide, by decide, below_min_empty_and_gap 10 1 (by decide) (by decide)⟩

/-- C5 counterexample: for two members the visit order is `[0]`, which is not
a permutation of the index range `[0, 2)` — index `1` is never visited. -/
theorem visit_order_not_full_perm :
    visitOrder 2 = [0] ∧ ¬ List.Perm (visitOrder 2) (intervalInt 0 2) :=
  ⟨rfl, by decide⟩

/-- C5 amended: the visit order of a single member is `[-1]` (the code has no
special case; `-1` is Python's negative index of the only element), and for
`n ≥ 2` members the visit order is a permutation of the indices
`0, …, n - 2` only: each of these exactly once, while the last index `n - 1`
is never visited. -/
theorem visit_order_perm_amended (n : Nat) (h2 : 2 ≤ n) :
    visitOrder 1 = [-1] ∧ List.Perm (visitOrder n) (intervalInt 0 (n - 1)) :=
  ⟨rfl, visitOrder_perm_core n h2⟩

/-- Witness for the amended C5 at `n = 6` members. -/
theorem visit_order_perm_amended_witness :
    2 ≤ 6 ∧ (visitOrder 1 = [-1] ∧ List.Perm (visitOrder 6) (intervalInt 0 (6 - 1))) :=
  ⟨by decide, visit_order_perm_amended 6 (by decide)⟩

/-- C6 counterexample: at `arenaSize = 100` the quota at `p = 6` admits no
size, yet `p = 3` — a value scanned after it — admits the size `32`; the
break therefore loses candidates, and indeed the scan records nothing. -/
theorem early_exit_loses_candidates :
    quotaSizes 100 6 = [] ∧ quotaSizes 100 3 ≠ [] ∧ workables 100 = [] :=
  ⟨by decide, by decide, by decide⟩

/-- C6 amended: the monotonicity runs in the opposite direction to the claim:
if the quota at `p` admits no block size then no quota at `q ≥ p` — scanned
before `p` — admits one, so the break can only ever fire on the first scanned
count `p = len(blockSizeSet)`; counts scanned after it may still admit sizes,
which the break then loses. -/
theorem early_exit_monotone (a p q : Int) (ha : 0 ≤ a) (hp : 0 < p) (hpq : p ≤ q)
    (h : quotaSizes a p = []) : quotaSizes a q = [] :=
  quotaSizes_nil_mono a p q ha hp hpq h

/-- Witness for the amended C6 at `arenaSize = 100`, `p = 5`, `q = 6`. -/
theorem early_exit_monotone_witness :
    (0 : Int) ≤ 100 ∧ (0 : Int) < 5 ∧ (5 : Int) ≤ 6 ∧ quotaSizes 100 5 = [] ∧
      quotaSizes 100 6 = [] :=
  ⟨by decide, by decide, by decide, by decide,
    early_exit_monotone 100 5 6 (by decide) (by decide) (by decide) (by decide)⟩

/-- C7: the line-50 selector picks a recorded candidate of maximum member
count, and the decomposition shows that every candidate recorded before it —
that is, at a larger partition count, the scan recording in descending `p`
order — has strictly fewer members: a tie goes to the first maximum met while
scanning `p` downward. -/
theorem selector_picks_first_maximum (a : Int) (h : workables a ≠ []) :
    ∃ w l1 l2, pyMaxByLen (workables a) = .ok w ∧ workables a = l1 ++ w :: l2 ∧
      (∀ c ∈ workables a, c.1.length ≤ w.1.length) ∧
      (∀ c ∈ l1, c.1.length < w.1.length) := by
  rcases pyMaxByLen_spec (workables a) h with ⟨w, l1, l2, hsel, hdec, hlt, hle⟩
  exact ⟨w, l1, l2, hsel, hdec, hle, hlt⟩

/-- Witness for C7 at `arenaSize = 192`. -/
theorem selector_picks_first_maximum_witness :
    workables 192 ≠ [] ∧
      (∃ w l1 l2, pyMaxByLen (workables 192) = .ok w ∧ workables 192 = l1 ++ w :: l2 ∧
        (∀ c ∈ workables 192, c.1.length ≤ w.1.length) ∧
        (∀ c ∈ l1, c.1.length < w.1.length)) :=
  ⟨by decide, selector_picks_first_maximum 192 (by decide)⟩

/-- C8 counterexample: at the valid input `arenaSize = 17` the function
returns, but the returned mapping has no keys: no configured size appears in
it. -/
theorem coverage_fails :
    split_arena 1 17 = .ok ([], 17) ∧
      ¬ (∀ sz ∈ BLOCK_SIZES, (dictGet ([] : Dict) sz).isSome = true) :=
  ⟨rfl, by decide⟩

/-- C8 amended: whenever `split_arena` returns at all — exactly for
`0 < arenaSize < 32` — the returned mapping is empty, so no configured size
appears as a key. -/
theorem returned_mapping_empty (a : Int) (fuel : Nat) (r : Dict × Int)
    (h : split_arena fuel a = .ok r) :
    r.1 = [] ∧ ∀ sz ∈ BLOCK_SIZES, dictGet r.1 sz = none := by
  have hr1 : r.1 = [] := by
    by_cases h0 : 0 < a
    · by_cases h32 : a < 32
      · have hb := split_arena_below a fuel h0 h32
        rw [hb] at h
        injection h with h2
        rw [← h2]
      · by_cases h192 : a < 192
        · rw [split_arena_mid a fuel (by omega) h192] at h
          exact Except.noConfusion h
        · rcases split_arena_ge192 a (by omega) with ⟨hsucc, hzero⟩
          cases fuel with
          | zero => rw [hzero] at h; exact Except.noConfusion h
          | succ f => rw [hsucc f] at h; exact Except.noConfusion h
    · rw [split_arena_neg a fuel (by omega)] at h
      exact Except.noConfusion h
  refine ⟨hr1, ?_⟩
  intro sz _
  rw [hr1]
  rfl

/-- Witness for the amended C8 at `arenaSize = 17`. -/
theorem returned_mapping_empty_witness :
    split_arena 1 17 = .ok ([], 17) ∧
      (((([] : Dict), (17 : Int)).1 = [] ∧
        ∀ sz ∈ BLOCK_SIZES, dictGet ((([] : Dict), (17 : Int))).1 sz = none)) :=
  ⟨rfl, returned_mapping_empty 17 1 ([], 17) rfl⟩

/-- C9: every candidate recorded by the scan has all member sizes bounded by
its distribution size, members in strictly descending order, and a cumulative
reservation `len(members) * distSz` that does not exceed the arena size. -/
theorem candidate_invariant (a : Int) (c : List Int × Int) (ha : 0 < a)
    (hc : c ∈ workables a) :
    (∀ x ∈ c.1, x ≤ c.2) ∧ c.1.Pairwise (· > ·) ∧ ((c.1.length : Int) * c.2 ≤ a) := by
  rcases workablesLoop_invariant a (by omega) partitionCounts c hc with
    ⟨_, _, _, _, hsub, hmem, hbud⟩
  exact ⟨hmem, BLOCK_SIZES_sorted.sublist hsub, hbud⟩

/-- Witness for C9: the candidate recorded at `p = 6` for `arenaSize = 2048`. -/
theorem candidate_invariant_witness :
    (0 : Int) < 2048 ∧ (([256, 128, 64, 32], 256) : List Int × Int) ∈ workables 2048 ∧
      ((∀ x ∈ (([256, 128, 64, 32], 256) : List Int × Int).1,
          x ≤ (([256, 128, 64, 32], 256) : List Int × Int).2) ∧
        (([256, 128, 64, 32], 256) : List Int × Int).1.Pairwise (· > ·) ∧
        (((([256, 128, 64, 32], 256) : List Int × Int).1.length : Int) *
            (([256, 128, 64, 32], 256) : List Int × Int).2 ≤ 2048)) :=
  ⟨by decide, by decide,
    candidate_invariant 2048 ([256, 128, 64, 32], 256) (by decide) (by decide)⟩

/-- C10: for every `arenaSize ≤ 0` the line-5 assert fires synchronously — no
result, partial or otherwise, is produced — and for no positive `arenaSize`
does that condition fire. -/
theorem invalid_input_fail_fast (a : Int) (fuel : Nat) :
    (a ≤ 0 → split_arena fuel a = .error .assertPositive) ∧
      (0 < a → split_arena fuel a ≠ .error .assertPositive) := by
  refine ⟨fun h => split_arena_neg a fuel h, fun h0 hcontra => ?_⟩
  by_cases h32 : a < 32
  · rw [split_arena_below a fuel h0 h32] at hcontra
    exact Except.noConfusion hcontra
  · by_cases h192 : a < 192
    · rw [split_arena_mid a fuel (by omega) h192] at hcontra
      injection hcontra with h2
      exact PyErr.noConfusion h2
    · rcases split_arena_ge192 a (by omega) with ⟨hsucc, hzero⟩
      cases fuel with
      | zero =>
          rw [hzero] at hcontra
          injection hcontra with h2
          exact PyErr.noConfusion h2
      | succ f =>
          rw [hsucc f] at hcontra
          injection hcontra with h2
          exact PyErr.noConfusion h2

/-- Witness for C10 at `arenaSize = -5` and `arenaSize = 5`, fuel `1`. -/
theorem invalid_input_fail_fast_witness :
    (((-5 : Int) ≤ 0 → split_arena 1 (-5) = .error .assertPositive) ∧
        ((0 : Int) < -5 → split_arena 1 (-5) ≠ .error .assertPositive)) ∧
      (((5 : Int) ≤ 0 → split_arena 1 5 = .error .assertPositive) ∧
        ((0 : Int) < 5 → split_arena 1 5 ≠ .error .assertPositive)) :=
  ⟨invalid_input_fail_fast (-5) 1, invalid_input_fail_fast 5 1⟩
